import Mathlib

/-!
A shallow embedding of the firefly wireless-mesh-router placement program
(`src/src/main.rs`) and proofs of the specification's claims about it.

Rust `f64` values are modelled as real numbers; `f64` slices (`&[f64]`) as
`List ℝ`; `usize` as `ℕ`.  The program's random number generator
(`rand::thread_rng`) is modelled as an abstract stream `ℕ → ℝ` of raw draws
together with a counter that advances by one per call, so that every claim is
stated for an arbitrary stream.
-/

set_option maxRecDepth 8192

namespace Firefly

/-- A position in the planning area, modelling a `&[f64]` slice. -/
abbrev Point : Type := List ℝ

/-- Constant `NUMBER_OF_MESH_ROUTERS` from `main.rs`. -/
def NUMBER_OF_MESH_ROUTERS : ℕ := 16

/-- Constant `NUMBER_OF_MESH_CLIENTS` from `main.rs`. -/
def NUMBER_OF_MESH_CLIENTS : ℕ := 32

/-- Constant `DIMENSIONS` from `main.rs`. -/
def DIMENSIONS : ℕ := 2

/-- Constant `NUMBER_OF_ITERATIONS` from `main.rs`. -/
def NUMBER_OF_ITERATIONS : ℕ := 100

/-- Constant `ALPHA` from `main.rs`. -/
noncomputable def ALPHA : ℝ := 0.5

/-- Constant `BETA0` from `main.rs`. -/
noncomputable def BETA0 : ℝ := 1.0

/-- Constant `GAMMA` from `main.rs`. -/
noncomputable def GAMMA : ℝ := 1.0

/-- Constant `LOWER_BOUND` from `main.rs`. -/
noncomputable def LOWER_BOUND : ℝ := 0.0

/-- Constant `UPPER_BOUND` from `main.rs`. -/
noncomputable def UPPER_BOUND : ℝ := 32.0

/-- Constant `MAXIMUM_COMMUNICATION_DISTANCE` from `main.rs`. -/
noncomputable def MAXIMUM_COMMUNICATION_DISTANCE : ℝ := 4.5

/-- Constant `PRIORITY_SGC` from `main.rs`. -/
noncomputable def PRIORITY_SGC : ℝ := 0.8

/-- Constant `PRIORITY_NCMC` from `main.rs`. -/
noncomputable def PRIORITY_NCMC : ℝ := 0.1

/-- Constant `PRIORITY_NCMCPR` from `main.rs`. -/
noncomputable def PRIORITY_NCMCPR : ℝ := 0.1

/-- `fn distance(x: &[f64], y: &[f64]) -> f64` from `main.rs`:
`x.iter().zip(y.iter()).map(|(xi, yi)| (xi - yi).powi(2)).sum::<f64>().sqrt()`. -/
noncomputable def distance (x y : Point) : ℝ :=
  Real.sqrt (((x.zip y).map (fun p => (p.1 - p.2) ^ 2)).sum)

/-- One step of the neighbor scan inside the BFS `while` loop of `fn sgc` in
`main.rs`: for router index `i`, if `!visited[i]` and the distance from
`routers[current]` to `routers[i]` is at most `MAXIMUM_COMMUNICATION_DISTANCE`,
mark `i` visited, push it on the back of the queue, and increment the component
size.  The state triple records (visited set, queue, component size). -/
noncomputable def scanStep (routers : List Point) (current : ℕ)
    (st : Finset ℕ × List ℕ × ℕ) (i : ℕ) : Finset ℕ × List ℕ × ℕ :=
  if i ∉ st.1 ∧
      distance (routers.getD current []) (routers.getD i []) ≤ MAXIMUM_COMMUNICATION_DISTANCE then
    (insert i st.1, st.2.1 ++ [i], st.2.2 + 1)
  else st

/-- BFS loop `while let Some(current) = queue.pop_front()` of `fn sgc` in
`main.rs`: each round pops the front of the queue and scans all router indices
`0..routers.len()` with `scanStep`; returns the final visited set and the
component size. -/
noncomputable def bfsLoop (routers : List Point) :
    Finset ℕ → List ℕ → ℕ → Finset ℕ × ℕ
  | visited, [], size => (visited, size)
  | visited, current :: rest, size =>
    bfsLoop routers
      ((List.range routers.length).foldl (scanStep routers current) (visited, rest, size)).1
      ((List.range routers.length).foldl (scanStep routers current) (visited, rest, size)).2.1
      ((List.range routers.length).foldl (scanStep routers current) (visited, rest, size)).2.2
termination_by visited queue _ =>
  (Finset.range routers.length \ visited).card * (routers.length + 1) + queue.length
decreasing_by
  simp only [List.length_cons]
  have key : ∀ (l : List ℕ) (v : Finset ℕ) (q : List ℕ) (s : ℕ),
      (∀ x ∈ l, x < routers.length) →
      (Finset.range routers.length \
            (l.foldl (scanStep routers current) (v, q, s)).1).card * (routers.length + 1)
          + (l.foldl (scanStep routers current) (v, q, s)).2.1.length
        ≤ (Finset.range routers.length \ v).card * (routers.length + 1) + q.length := by
    intro l
    induction l with
    | nil => intro v q s _; exact le_refl _
    | cons i t ih =>
        intro v q s hl
        rw [List.foldl_cons]
        by_cases hc : i ∉ v ∧
            distance (routers.getD current []) (routers.getD i [])
              ≤ MAXIMUM_COMMUNICATION_DISTANCE
        · have hstep : scanStep routers current (v, q, s) i = (insert i v, q ++ [i], s + 1) := by
            simp only [scanStep]
            rw [if_pos hc]
          rw [hstep]
          have hi : i ∈ Finset.range routers.length \ v :=
            Finset.mem_sdiff.mpr
              ⟨Finset.mem_range.mpr (hl i (List.mem_cons_self i t)), hc.1⟩
          have hcard : (Finset.range routers.length \ insert i v).card + 1
              = (Finset.range routers.length \ v).card := by
            rw [Finset.sdiff_insert, Finset.card_erase_of_mem hi]
            have hpos : 1 ≤ (Finset.range routers.length \ v).card :=
              Finset.card_pos.mpr ⟨i, hi⟩
            omega
          have h1 := ih (insert i v) (q ++ [i]) (s + 1)
            (fun x hx => hl x (List.mem_cons_of_mem i hx))
          have h2 : (q ++ [i]).length = q.length + 1 := by simp
          rw [h2] at h1
          rw [← hcard, Nat.succ_mul]
          linarith
        · have hstep : scanStep routers current (v, q, s) i = (v, q, s) := by
            simp only [scanStep]
            rw [if_neg hc]
          rw [hstep]
          exact ih v q s (fun x hx => hl x (List.mem_cons_of_mem i hx))
  have h := key (List.range routers.length) visited rest size
    (fun x hx => List.mem_range.mp hx)
  linarith

/-- Body of the outer `for start in 0..routers.len()` loop of `fn sgc` in
`main.rs`: skip starts already visited; otherwise run one BFS from `start`
(queue seeded with `start`, `start` marked visited, component size 1) and
take the max of the largest component so far with the component size found. -/
noncomputable def sgcStep (routers : List Point) (st : Finset ℕ × ℕ) (start : ℕ) :
    Finset ℕ × ℕ :=
  if start ∈ st.1 then st
  else
    ((bfsLoop routers (insert start st.1) [start] 1).1,
      max st.2 (bfsLoop routers (insert start st.1) [start] 1).2)

/-- `fn sgc(routers: &[[f64; DIMENSIONS]]) -> usize` from `main.rs`: the size of
the largest connected component of the router proximity graph, computed by BFS
from every unvisited start index. -/
noncomputable def sgc (routers : List Point) : ℕ :=
  ((List.range routers.length).foldl (sgcStep routers) (∅, 0)).2

/-- Inner `for router in routers` loop of `fn ncmc` in `main.rs`: scans the
routers in order and stops at the first one within
`MAXIMUM_COMMUNICATION_DISTANCE` of the client (the `break`). -/
noncomputable def coveredBy (routers : List Point) (client : Point) : Bool :=
  match routers with
  | [] => false
  | r :: rest =>
      if distance r client ≤ MAXIMUM_COMMUNICATION_DISTANCE then true
      else coveredBy rest client

/-- `fn ncmc(routers, clients) -> usize` from `main.rs`: the number of clients
that have at least one router within `MAXIMUM_COMMUNICATION_DISTANCE`,
accumulated client by client. -/
noncomputable def ncmc (routers clients : List Point) : ℕ :=
  clients.foldl (fun acc client => if coveredBy routers client then acc + 1 else acc) 0

/-- `fn ncmcpr(routers, clients) -> f64` from `main.rs`:
`ncmc(routers, clients) as f64 / routers.len() as f64`, read as a real-number
quotient (with the Lean convention that division by zero yields zero). -/
noncomputable def ncmcpr (routers clients : List Point) : ℝ :=
  (ncmc routers clients : ℝ) / (routers.length : ℝ)

/-- Result of the division in `fn ncmcpr` under IEEE-754 `f64` semantics.  The
Rust body divides unconditionally; when `routers.len() = 0` the numerator
`ncmc(...)` is also `0`, so the machine computes `0.0 / 0.0`, which is IEEE
NaN — modelled here as `none`.  For a non-empty router list the division is an
ordinary finite quotient, modelled as `some` of the real value.  There is no
guard in the source; this definition makes the NaN case explicit. -/
noncomputable def ncmcprF (routers clients : List Point) : Option ℝ :=
  if routers.length = 0 then none
  else some ((ncmc routers clients : ℝ) / (routers.length : ℝ))

/-- `fn fitness_function(routers, clients) -> f64` from `main.rs`: the weighted
sum of the three sub-metrics. -/
noncomputable def fitness_function (routers clients : List Point) : ℝ :=
  PRIORITY_SGC * (sgc routers : ℝ) + PRIORITY_NCMC * (ncmc routers clients : ℝ)
    + PRIORITY_NCMCPR * ncmcpr routers clients

/-- Rust `f64::clamp(self, min, max)`: `min` if the value is below `min`, `max`
if above `max`, otherwise the value itself. -/
noncomputable def clampR (x lo hi : ℝ) : ℝ :=
  if x < lo then lo else if hi < x then hi else x

/-- Body of the `for d in 0..DIMENSIONS` loop of `firefly_algorithm` in
`main.rs`: coordinate `d` of router `i` moves by
`beta * (mesh_routers[j][d] - mesh_routers[i][d])` plus
`ALPHA * (rng.gen::<f64>() - 0.5)` and is immediately clamped into
`[LOWER_BOUND, UPPER_BOUND]`.  The state is the router list paired with the
random-stream counter; `beta` was computed once at the start of the pair. -/
noncomputable def coordStep (rng : ℕ → ℝ) (beta : ℝ) (i j : ℕ)
    (st : List Point × ℕ) (d : ℕ) : List Point × ℕ :=
  (st.1.set i
      ((st.1.getD i []).set d
        (clampR
          ((st.1.getD i []).getD d 0
            + beta * ((st.1.getD j []).getD d 0 - (st.1.getD i []).getD d 0)
            + ALPHA * (rng st.2 - 0.5))
          LOWER_BOUND UPPER_BOUND)),
    st.2 + 1)

/-- Body of the `if i != j` block of `firefly_algorithm` in `main.rs`: compute
`r_ij` and `beta` from the positions of routers `i` and `j` at the moment the
pair is processed, then update every coordinate of router `i` in order. -/
noncomputable def pairStep (rng : ℕ → ℝ) (st : List Point × ℕ) (i j : ℕ) :
    List Point × ℕ :=
  if i ≠ j then
    (List.range DIMENSIONS).foldl
      (coordStep rng
        (BETA0 * Real.exp (-GAMMA * distance (st.1.getD i []) (st.1.getD j [])
          * distance (st.1.getD i []) (st.1.getD j [])))
        i j)
      st
  else st

/-- One full pass of the nested `for i { for j { ... } }` loops of
`firefly_algorithm` in `main.rs`; every pair sees the updates made by all
previous pairs of the same pass. -/
noncomputable def sweep (rng : ℕ → ℝ) (st : List Point × ℕ) : List Point × ℕ :=
  (List.range NUMBER_OF_MESH_ROUTERS).foldl
    (fun s i =>
      (List.range NUMBER_OF_MESH_ROUTERS).foldl (fun s2 j => pairStep rng s2 i j) s)
    st

/-- Sequence of ordered index pairs (i, j) visited by the nested update loops of
`firefly_algorithm`, in program order. -/
def pairSeq (n : ℕ) : List (ℕ × ℕ) :=
  (List.range n).flatMap (fun i => (List.range n).map (fun j => (i, j)))

/-- State of the optimizer loop of `firefly_algorithm` in `main.rs`: the live
router population, the position in the random stream, and the recorded best
configuration (router snapshot and its fitness). -/
structure OptState where
  routers : List Point
  ctr : ℕ
  best : List Point
  bestFitness : ℝ

/-- One iteration of the `for _ in 0..NUMBER_OF_ITERATIONS` loop of
`firefly_algorithm`: run the pairwise sweep, recompute the population fitness,
and replace the recorded best only on a strict improvement. -/
noncomputable def iterationStep (rng : ℕ → ℝ) (clients : List Point)
    (st : OptState) : OptState :=
  if fitness_function (sweep rng (st.routers, st.ctr)).1 clients > st.bestFitness then
    ⟨(sweep rng (st.routers, st.ctr)).1, (sweep rng (st.routers, st.ctr)).2,
      (sweep rng (st.routers, st.ctr)).1,
      fitness_function (sweep rng (st.routers, st.ctr)).1 clients⟩
  else
    ⟨(sweep rng (st.routers, st.ctr)).1, (sweep rng (st.routers, st.ctr)).2,
      st.best, st.bestFitness⟩

/-- Random initialization of a block of points in `firefly_algorithm`: point
`k`, coordinate `d` receives the stream draw numbered `start + k * DIMENSIONS
+ d`, matching the sequential `rng.gen_range(LOWER_BOUND..UPPER_BOUND)` calls
in `main.rs`. -/
noncomputable def initPoints (rng : ℕ → ℝ) (start count : ℕ) : List Point :=
  (List.range count).map
    (fun k => (List.range DIMENSIONS).map (fun d => rng (start + k * DIMENSIONS + d)))

/-- Client positions generated at the start of `firefly_algorithm` (the clients
consume the first `NUMBER_OF_MESH_CLIENTS * DIMENSIONS` draws) and never
mutated afterwards. -/
noncomputable def initClients (rng : ℕ → ℝ) : List Point :=
  initPoints rng 0 NUMBER_OF_MESH_CLIENTS

/-- Router positions generated at the start of `firefly_algorithm`, consuming
the draws after the client block. -/
noncomputable def initRouters (rng : ℕ → ℝ) : List Point :=
  initPoints rng (NUMBER_OF_MESH_CLIENTS * DIMENSIONS) NUMBER_OF_MESH_ROUTERS

/-- Number of random draws consumed by initialization in `firefly_algorithm`. -/
def initDraws : ℕ := (NUMBER_OF_MESH_CLIENTS + NUMBER_OF_MESH_ROUTERS) * DIMENSIONS

/-- Optimizer state right after initialization in `firefly_algorithm`:
`best_mesh_routers = mesh_routers.clone()` and
`best_fitness = fitness_function(&mesh_routers, &mesh_clients)`. -/
noncomputable def initState (rng : ℕ → ℝ) : OptState :=
  ⟨initRouters rng, initDraws, initRouters rng,
    fitness_function (initRouters rng) (initClients rng)⟩

/-- Optimizer state after `t` iterations of the main loop of
`firefly_algorithm`, starting from the freshly initialized state. -/
noncomputable def stateAfter (rng : ℕ → ℝ) (t : ℕ) : OptState :=
  (iterationStep rng (initClients rng))^[t] (initState rng)

/-- Final output of `firefly_algorithm`: the best router configuration and the
best fitness after all `NUMBER_OF_ITERATIONS` iterations. -/
noncomputable def runResult (rng : ℕ → ℝ) : List Point × ℝ :=
  ((stateAfter rng NUMBER_OF_ITERATIONS).best,
    (stateAfter rng NUMBER_OF_ITERATIONS).bestFitness)

/-- Every coordinate of every listed point lies within
`[LOWER_BOUND, UPPER_BOUND]`. -/
def inRange (routers : List Point) : Prop :=
  ∀ p ∈ routers, ∀ c ∈ p, LOWER_BOUND ≤ c ∧ c ≤ UPPER_BOUND

/-- Bridge sending a two-coordinate point to `EuclideanSpace ℝ (Fin 2)`, used
to relate `distance` to the mathematical Euclidean metric. -/
noncomputable def toE (a1 a2 : ℝ) : EuclideanSpace ℝ (Fin 2) :=
  (WithLp.equiv 2 (Fin 2 → ℝ)).symm ![a1, a2]

end Firefly

namespace Firefly

theorem coveredBy_iff (routers : List Point) (client : Point) :
    coveredBy routers client = true ↔
      ∃ r ∈ routers, distance r client ≤ MAXIMUM_COMMUNICATION_DISTANCE := by
  induction routers with
  | nil => simp [coveredBy]
  | cons r rest ih =>
      by_cases h : distance r client ≤ MAXIMUM_COMMUNICATION_DISTANCE
      · simp [coveredBy, h]
      · simp [coveredBy, h, ih]

theorem ncmc_foldl_acc (routers : List Point) :
    ∀ (clients : List Point) (acc : ℕ),
      clients.foldl (fun a client => if coveredBy routers client then a + 1 else a) acc
        = acc + clients.countP (fun c => coveredBy routers c) := by
  intro clients
  induction clients with
  | nil => intro acc; simp
  | cons c rest ih =>
      intro acc
      rw [List.foldl_cons, List.countP_cons]
      by_cases h : coveredBy routers c
      · rw [if_pos h, ih]
        simp [h]
        omega
      · rw [if_neg h, ih]
        simp [h]

theorem ncmc_eq_countP (routers clients : List Point) :
    ncmc routers clients = clients.countP (fun c => coveredBy routers c) := by
  rw [ncmc, ncmc_foldl_acc]
  simp

theorem distance_pair (a1 a2 b1 b3 : ℝ) :
    distance [a1, a2] [b1, b3] = Real.sqrt ((a1 - b1) ^ 2 + (a2 - b3) ^ 2) := by
  simp [distance]

theorem distance_eq_toE (a1 a2 b1 b3 : ℝ) :
    distance [a1, a2] [b1, b3] = dist (toE a1 a2) (toE b1 b3) := by
  rw [distance_pair, EuclideanSpace.dist_eq, Fin.sum_univ_two]
  simp [toE, Real.dist_eq, sq_abs]

/-- C9: for points of the fixed dimension 2, `distance` is symmetric, vanishes
on equal points and only there, is nonnegative, and satisfies the triangle
inequality. -/
theorem C9_distance_metric : ∀ a1 a2 b1 b2 c1 c2 : ℝ,
    distance [a1, a2] [b1, b2] = distance [b1, b2] [a1, a2]
    ∧ distance [a1, a2] [a1, a2] = 0
    ∧ 0 ≤ distance [a1, a2] [b1, b2]
    ∧ (distance [a1, a2] [b1, b2] = 0 ↔ a1 = b1 ∧ a2 = b2)
    ∧ distance [a1, a2] [c1, c2]
        ≤ distance [a1, a2] [b1, b2] + distance [b1, b2] [c1, c2] := by
  intro a1 a2 b1 b2 c1 c2
  refine ⟨?_, ?_, ?_, ?_, ?_⟩
  · rw [distance_eq_toE, distance_eq_toE, dist_comm]
  · rw [distance_eq_toE, dist_self]
  · rw [distance_eq_toE]
    exact dist_nonneg
  · constructor
    · intro h
      rw [distance_pair] at h
      have hnn : (0 : ℝ) ≤ (a1 - b1) ^ 2 + (a2 - b2) ^ 2 := by positivity
      have hsum : (a1 - b1) ^ 2 + (a2 - b2) ^ 2 = 0 :=
        (Real.sqrt_eq_zero hnn).mp h
      have h1 : (a1 - b1) ^ 2 = 0 := by nlinarith [sq_nonneg (a1 - b1), sq_nonneg (a2 - b2)]
      have h2 : (a2 - b2) ^ 2 = 0 := by nlinarith [sq_nonneg (a1 - b1), sq_nonneg (a2 - b2)]
      have h3 : a1 - b1 = 0 := by
        have := pow_eq_zero_iff (n := 2) (by norm_num) |>.mp h1
        exact this
      have h4 : a2 - b2 = 0 := by
        have := pow_eq_zero_iff (n := 2) (by norm_num) |>.mp h2
        exact this
      constructor
      · linarith
      · linarith
    · rintro ⟨rfl, rfl⟩
      rw [distance_pair]
      simp
  · rw [distance_eq_toE, distance_eq_toE, distance_eq_toE]
    exact dist_triangle _ _ _

/-- C10: the covered-client count is between 0 and the number of clients, and
an empty client set yields 0. -/
theorem C10_ncmc_bounds : ∀ routers clients : List Point,
    0 ≤ ncmc routers clients
    ∧ ncmc routers clients ≤ clients.length
    ∧ ncmc routers ([] : List Point) = 0 := by
  intro routers clients
  refine ⟨Nat.zero_le _, ?_, rfl⟩
  rw [ncmc_eq_countP]
  exact List.countP_le_length _

/-- C8: the covered-client count does not depend on the order of the routers;
any permutation of the router list yields the same `ncmc` value. -/
theorem C8_ncmc_perm_invariant :
    ∀ (routers rts clients : List Point),
      routers.Perm rts → ncmc routers clients = ncmc rts clients := by
  intro routers rts clients hperm
  rw [ncmc_eq_countP, ncmc_eq_countP]
  apply List.countP_congr
  intro c _
  have h1 := coveredBy_iff routers c
  have h2 := coveredBy_iff rts c
  by_cases h : ∃ r ∈ routers, distance r c ≤ MAXIMUM_COMMUNICATION_DISTANCE
  · obtain ⟨r, hr, hd⟩ := h
    have e1 : coveredBy routers c = true := h1.mpr ⟨r, hr, hd⟩
    have e2 : coveredBy rts c = true := h2.mpr ⟨r, hperm.mem_iff.mp hr, hd⟩
    rw [e1, e2]
  · have e1 : coveredBy routers c = false := by
      rcases Bool.eq_false_or_eq_true (coveredBy routers c) with hb | hb
      · exact absurd (h1.mp hb) h
      · exact hb
    have e2 : coveredBy rts c = false := by
      rcases Bool.eq_false_or_eq_true (coveredBy rts c) with hb | hb
      · refine absurd ?_ h
        obtain ⟨r, hr, hd⟩ := h2.mp hb
        exact ⟨r, hperm.mem_iff.mpr hr, hd⟩
      · exact hb
    rw [e1, e2]

/-- Witness for C8 at a concrete pair of permuted router lists. -/
theorem C8_witness :
    ncmc [[(0 : ℝ), 0], [9, 9]] [[1, 1]] = ncmc [[(9 : ℝ), 9], [0, 0]] [[1, 1]] :=
  C8_ncmc_perm_invariant [[(0 : ℝ), 0], [9, 9]] [[(9 : ℝ), 9], [0, 0]] [[1, 1]]
    (List.Perm.swap _ _ _)

/-- C6: the range comparison of `ncmc` is inclusive, so a client exactly at
`MAXIMUM_COMMUNICATION_DISTANCE` from some router counts as covered, and
`ncmc` counts exactly the clients with at least one router within range. -/
theorem C6_coverage_boundary :
    (∀ routers clients : List Point,
        ncmc routers clients = clients.countP (fun c => coveredBy routers c))
    ∧ (∀ (routers : List Point) (client : Point),
        coveredBy routers client = true ↔
          ∃ r ∈ routers, distance r client ≤ MAXIMUM_COMMUNICATION_DISTANCE)
    ∧ (∀ (routers : List Point) (client r : Point),
        r ∈ routers → distance r client = MAXIMUM_COMMUNICATION_DISTANCE →
          coveredBy routers client = true) := by
  refine ⟨ncmc_eq_countP, coveredBy_iff, ?_⟩
  intro routers client r hr hd
  exact (coveredBy_iff routers client).mpr ⟨r, hr, le_of_eq hd⟩

/-- Witness for C6: a client at exact distance 4.5 from the only router is
covered and counted. -/
theorem C6_witness :
    coveredBy [[(0 : ℝ), 0]] [4.5, 0] = true
    ∧ ncmc [[(0 : ℝ), 0]] [[4.5, 0]] = 1 := by
  have hd : distance [(0 : ℝ), 0] [4.5, 0] = MAXIMUM_COMMUNICATION_DISTANCE := by
    rw [distance_pair]
    rw [show ((0 : ℝ) - 4.5) ^ 2 + (0 - 0) ^ 2 = 4.5 ^ 2 by norm_num]
    rw [Real.sqrt_sq (by norm_num : (0 : ℝ) ≤ 4.5)]
    rw [MAXIMUM_COMMUNICATION_DISTANCE]
  have hcov : coveredBy [[(0 : ℝ), 0]] [4.5, 0] = true :=
    C6_coverage_boundary.2.2 [[(0 : ℝ), 0]] [4.5, 0] [(0 : ℝ), 0]
      (List.mem_singleton.mpr rfl) hd
  refine ⟨hcov, ?_⟩
  rw [C6_coverage_boundary.1]
  simp [List.countP_cons, hcov]

theorem scan_size_le (routers : List Point) (current : ℕ) :
    ∀ (l : List ℕ) (st : Finset ℕ × List ℕ × ℕ),
      st.2.2 ≤ (l.foldl (scanStep routers current) st).2.2 := by
  intro l
  induction l with
  | nil => intro st; exact le_refl _
  | cons i t ih =>
      intro st
      rw [List.foldl_cons]
      refine le_trans ?_ (ih _)
      by_cases hc : i ∉ st.1 ∧
          distance (routers.getD current []) (routers.getD i [])
            ≤ MAXIMUM_COMMUNICATION_DISTANCE
      · rw [scanStep, if_pos hc]
        exact Nat.le_succ _
      · rw [scanStep, if_neg hc]

theorem scan_card_le (routers : List Point) (current : ℕ) :
    ∀ (l : List ℕ) (st : Finset ℕ × List ℕ × ℕ),
      (∀ x ∈ l, x < routers.length) →
      (l.foldl (scanStep routers current) st).2.2
          + (Finset.range routers.length \ (l.foldl (scanStep routers current) st).1).card
        ≤ st.2.2 + (Finset.range routers.length \ st.1).card := by
  intro l
  induction l with
  | nil => intro st _; exact le_refl _
  | cons i t ih =>
      intro st hl
      rw [List.foldl_cons]
      refine le_trans (ih _ (fun x hx => hl x (List.mem_cons_of_mem i hx))) ?_
      by_cases hc : i ∉ st.1 ∧
          distance (routers.getD current []) (routers.getD i [])
            ≤ MAXIMUM_COMMUNICATION_DISTANCE
      · rw [scanStep, if_pos hc]
        dsimp only
        have hi : i ∈ Finset.range routers.length \ st.1 :=
          Finset.mem_sdiff.mpr
            ⟨Finset.mem_range.mpr (hl i (List.mem_cons_self i t)), hc.1⟩
        have hcard : (Finset.range routers.length \ insert i st.1).card + 1
            = (Finset.range routers.length \ st.1).card := by
          rw [Finset.sdiff_insert, Finset.card_erase_of_mem hi]
          have hpos : 1 ≤ (Finset.range routers.length \ st.1).card :=
            Finset.card_pos.mpr ⟨i, hi⟩
          omega
        omega
      · rw [scanStep, if_neg hc]

theorem scan_noop (routers : List Point) (current : ℕ)
    (hfar : ∀ i j : ℕ, i < routers.length → j < routers.length → i ≠ j →
      MAXIMUM_COMMUNICATION_DISTANCE
        < distance (routers.getD i []) (routers.getD j []))
    (hcur : current < routers.length) :
    ∀ (l : List ℕ) (st : Finset ℕ × List ℕ × ℕ),
      current ∈ st.1 → (∀ x ∈ l, x < routers.length) →
      l.foldl (scanStep routers current) st = st := by
  intro l
  induction l with
  | nil => intro st _ _; rfl
  | cons i t ih =>
      intro st hmem hl
      rw [List.foldl_cons]
      have hstep : scanStep routers current st i = st := by
        rw [scanStep, if_neg]
        intro hc
        by_cases hic : i = current
        · exact hc.1 (hic ▸ hmem)
        · exact absurd hc.2
            (not_le.mpr
              (hfar current i hcur (hl i (List.mem_cons_self i t)) (fun h => hic h.symm)))
      rw [hstep]
      exact ih st hmem (fun x hx => hl x (List.mem_cons_of_mem i hx))

theorem bfs_size_le (routers : List Point) :
    ∀ (v : Finset ℕ) (q : List ℕ) (s : ℕ), s ≤ (bfsLoop routers v q s).2 := by
  intro v q s
  induction v, q, s using bfsLoop.induct routers with
  | case1 v s => rw [bfsLoop]
  | case2 v current rest s ih =>
      rw [bfsLoop]
      refine le_trans ?_ ih
      exact scan_size_le routers current (List.range routers.length) (v, rest, s)

theorem bfs_size_bound (routers : List Point) :
    ∀ (v : Finset ℕ) (q : List ℕ) (s : ℕ),
      (bfsLoop routers v q s).2 ≤ s + (Finset.range routers.length \ v).card := by
  intro v q s
  induction v, q, s using bfsLoop.induct routers with
  | case1 v s => rw [bfsLoop]; omega
  | case2 v current rest s ih =>
      rw [bfsLoop]
      refine le_trans ih ?_
      exact scan_card_le routers current (List.range routers.length) (v, rest, s)
        (fun x hx => List.mem_range.mp hx)

theorem bfs_noop (routers : List Point)
    (hfar : ∀ i j : ℕ, i < routers.length → j < routers.length → i ≠ j →
      MAXIMUM_COMMUNICATION_DISTANCE
        < distance (routers.getD i []) (routers.getD j [])) :
    ∀ (v : Finset ℕ) (q : List ℕ) (s : ℕ),
      (∀ x ∈ q, x ∈ v ∧ x < routers.length) →
      bfsLoop routers v q s = (v, s) := by
  intro v q s
  induction v, q, s using bfsLoop.induct routers with
  | case1 v s => intro _; rw [bfsLoop]
  | case2 v current rest s ih =>
      intro hq
      have hscan : (List.range routers.length).foldl (scanStep routers current) (v, rest, s)
          = (v, rest, s) :=
        scan_noop routers current hfar (hq current (List.mem_cons_self current rest)).2
          (List.range routers.length) (v, rest, s)
          (hq current (List.mem_cons_self current rest)).1
          (fun x hx => List.mem_range.mp hx)
      rw [bfsLoop, hscan]
      rw [hscan] at ih
      exact ih (fun x hx => hq x (List.mem_cons_of_mem current hx))

theorem sgcFold_snd_le (routers : List Point) :
    ∀ (l : List ℕ) (st : Finset ℕ × ℕ),
      st.2 ≤ (l.foldl (sgcStep routers) st).2 := by
  intro l
  induction l with
  | nil => intro st; exact le_refl _
  | cons start t ih =>
      intro st
      rw [List.foldl_cons]
      refine le_trans ?_ (ih _)
      by_cases hv : start ∈ st.1
      · rw [sgcStep, if_pos hv]
      · rw [sgcStep, if_neg hv]
        exact le_max_left _ _

theorem sgcFold_bound (routers : List Point) :
    ∀ (l : List ℕ) (st : Finset ℕ × ℕ),
      (∀ x ∈ l, x < routers.length) → st.2 ≤ routers.length →
      (l.foldl (sgcStep routers) st).2 ≤ routers.length := by
  intro l
  induction l with
  | nil => intro st _ h; exact h
  | cons start t ih =>
      intro st hl hst
      rw [List.foldl_cons]
      refine ih _ (fun x hx => hl x (List.mem_cons_of_mem start hx)) ?_
      by_cases hv : start ∈ st.1
      · rw [sgcStep, if_pos hv]; exact hst
      · rw [sgcStep, if_neg hv]
        have hstart : start < routers.length := hl start (List.mem_cons_self start t)
        have hb := bfs_size_bound routers (insert start st.1) [start] 1
        have hsub : Finset.range routers.length \ insert start st.1
            ⊆ (Finset.range routers.length).erase start := by
          intro x hx
          have hx1 := Finset.mem_sdiff.mp hx
          exact Finset.mem_erase.mpr
            ⟨fun h => hx1.2 (h ▸ Finset.mem_insert_self start st.1), hx1.1⟩
        have hcard : (Finset.range routers.length \ insert start st.1).card
            ≤ routers.length - 1 := by
          refine le_trans (Finset.card_le_card hsub) ?_
          rw [Finset.card_erase_of_mem (Finset.mem_range.mpr hstart), Finset.card_range]
        have : (bfsLoop routers (insert start st.1) [start] 1).2 ≤ routers.length := by
          omega
        simp only [max_le_iff]
        exact ⟨hst, this⟩

theorem sgcFold_isolated (routers : List Point)
    (hfar : ∀ i j : ℕ, i < routers.length → j < routers.length → i ≠ j →
      MAXIMUM_COMMUNICATION_DISTANCE
        < distance (routers.getD i []) (routers.getD j [])) :
    ∀ (l : List ℕ) (st : Finset ℕ × ℕ),
      (∀ x ∈ l, x < routers.length) → st.2 ≤ 1 →
      (l.foldl (sgcStep routers) st).2 ≤ 1 := by
  intro l
  induction l with
  | nil => intro st _ h; exact h
  | cons start t ih =>
      intro st hl hst
      rw [List.foldl_cons]
      refine ih _ (fun x hx => hl x (List.mem_cons_of_mem start hx)) ?_
      by_cases hv : start ∈ st.1
      · rw [sgcStep, if_pos hv]; exact hst
      · rw [sgcStep, if_neg hv]
        have hb : bfsLoop routers (insert start st.1) [start] 1 = (insert start st.1, 1) :=
          bfs_noop routers hfar (insert start st.1) [start] 1
            (by
              intro x hx
              rw [List.mem_singleton] at hx
              subst hx
              exact ⟨Finset.mem_insert_self x st.1, hl x (List.mem_cons_self x t)⟩)
        rw [hb]
        simp only [max_le_iff]
        exact ⟨hst, le_refl 1⟩

/-- C3: for a non-empty router set the giant-component size lies between 1 and
the number of routers, it is exactly 1 when all pairwise distances exceed the
communication range, and an empty router set yields 0. -/
theorem C3_sgc_bounds : ∀ routers : List Point,
    (routers ≠ [] → 1 ≤ sgc routers ∧ sgc routers ≤ routers.length)
    ∧ ((∀ i j : ℕ, i < routers.length → j < routers.length → i ≠ j →
          MAXIMUM_COMMUNICATION_DISTANCE
            < distance (routers.getD i []) (routers.getD j [])) →
        routers ≠ [] → sgc routers = 1)
    ∧ sgc ([] : List Point) = 0 := by
  intro routers
  have hlow : routers ≠ [] → 1 ≤ sgc routers := by
    intro hne
    have hn : 0 < routers.length := List.length_pos.mpr hne
    obtain ⟨m, hm⟩ : ∃ m, routers.length = m + 1 := ⟨routers.length - 1, by omega⟩
    rw [sgc, hm, List.range_succ_eq_map, List.foldl_cons]
    refine le_trans ?_ (sgcFold_snd_le routers _ _)
    have h0 : (0 : ℕ) ∉ (∅ : Finset ℕ) := Finset.not_mem_empty 0
    rw [sgcStep, if_neg h0]
    have := bfs_size_le routers (insert 0 (∅ : Finset ℕ)) [0] 1
    simp only [max_le_iff, le_max_iff]
    right
    exact this
  refine ⟨fun hne => ⟨hlow hne, ?_⟩, fun hfar hne => ?_, ?_⟩
  · rw [sgc]
    exact sgcFold_bound routers (List.range routers.length) (∅, 0)
      (fun x hx => List.mem_range.mp hx) (Nat.zero_le _)
  · refine le_antisymm ?_ (hlow hne)
    rw [sgc]
    exact sgcFold_isolated routers hfar (List.range routers.length) (∅, 0)
      (fun x hx => List.mem_range.mp hx) (Nat.zero_le _)
  · rw [sgc]
    rfl

/-- Witness for C3 at two routers placed 10 apart (all pairwise distances
exceed the range 4.5): the giant component has size exactly 1, within the
bounds, and the empty router set gives 0. -/
theorem C3_witness :
    1 ≤ sgc [[(0 : ℝ), 0], [10, 0]]
    ∧ sgc [[(0 : ℝ), 0], [10, 0]] ≤ 2
    ∧ sgc [[(0 : ℝ), 0], [10, 0]] = 1
    ∧ sgc ([] : List Point) = 0 := by
  have hd : distance [(0 : ℝ), 0] [10, 0] = 10 := by
    rw [distance_pair]
    rw [show ((0 : ℝ) - 10) ^ 2 + (0 - 0) ^ 2 = 10 ^ 2 by norm_num]
    exact Real.sqrt_sq (by norm_num)
  have hd2 : distance [(10 : ℝ), 0] [0, 0] = 10 := by
    rw [distance_pair]
    rw [show ((10 : ℝ) - 0) ^ 2 + (0 - 0) ^ 2 = 10 ^ 2 by norm_num]
    exact Real.sqrt_sq (by norm_num)
  have hfar : ∀ i j : ℕ,
      i < ([[(0 : ℝ), 0], [10, 0]] : List Point).length →
      j < ([[(0 : ℝ), 0], [10, 0]] : List Point).length → i ≠ j →
      MAXIMUM_COMMUNICATION_DISTANCE
        < distance (([[(0 : ℝ), 0], [10, 0]] : List Point).getD i [])
            (([[(0 : ℝ), 0], [10, 0]] : List Point).getD j []) := by
    intro i j hi hj hij
    simp only [List.length_cons, List.length_nil] at hi hj
    interval_cases i <;> interval_cases j <;> simp_all [List.getD] <;>
      rw [MAXIMUM_COMMUNICATION_DISTANCE] <;> norm_num [hd, hd2]
  have h := C3_sgc_bounds [[(0 : ℝ), 0], [10, 0]]
  have hne : ([[(0 : ℝ), 0], [10, 0]] : List Point) ≠ [] := by simp
  exact ⟨(h.1 hne).1, (h.1 hne).2, h.2.1 hfar hne, h.2.2⟩

theorem clampR_mem (x lo hi : ℝ) (h : lo ≤ hi) :
    lo ≤ clampR x lo hi ∧ clampR x lo hi ≤ hi := by
  rw [clampR]
  split_ifs with h1 h2
  · exact ⟨le_refl lo, h⟩
  · exact ⟨h, le_refl hi⟩
  · exact ⟨not_lt.mp h1, not_lt.mp h2⟩

theorem lower_le_upper : LOWER_BOUND ≤ UPPER_BOUND := by
  rw [LOWER_BOUND, UPPER_BOUND]
  norm_num

theorem coordStep_inRange (rng : ℕ → ℝ) (beta : ℝ) (i j d : ℕ)
    (st : List Point × ℕ) (h : inRange st.1) :
    inRange (coordStep rng beta i j st d).1 := by
  intro p hp c hc
  rcases List.mem_or_eq_of_mem_set hp with hpold | hpnew
  · exact h p hpold c hc
  · subst hpnew
    rcases List.mem_or_eq_of_mem_set hc with hcold | hcnew
    · by_cases hi : i < st.1.length
      · have hri : st.1.getD i [] ∈ st.1 := by
          rw [List.getD_eq_getElem _ _ hi]
          exact List.getElem_mem hi
        exact h _ hri c hcold
      · rw [List.getD_eq_default _ _ (by omega)] at hcold
        exact absurd hcold (List.not_mem_nil c)
    · subst hcnew
      exact clampR_mem _ _ _ lower_le_upper

theorem coordFold_inRange (rng : ℕ → ℝ) (beta : ℝ) (i j : ℕ) :
    ∀ (l : List ℕ) (st : List Point × ℕ), inRange st.1 →
      inRange ((l.foldl (coordStep rng beta i j) st).1) := by
  intro l
  induction l with
  | nil => intro st h; exact h
  | cons d t ih =>
      intro st h
      rw [List.foldl_cons]
      exact ih _ (coordStep_inRange rng beta i j d st h)

theorem pairStep_inRange (rng : ℕ → ℝ) (st : List Point × ℕ) (i j : ℕ)
    (h : inRange st.1) : inRange (pairStep rng st i j).1 := by
  rw [pairStep]
  split_ifs with hij
  · exact coordFold_inRange rng _ i j (List.range DIMENSIONS) st h
  · exact h

theorem sweep_inRange (rng : ℕ → ℝ) (st : List Point × ℕ) (h : inRange st.1) :
    inRange (sweep rng st).1 := by
  rw [sweep]
  have inner : ∀ (l : List ℕ) (s : List Point × ℕ) (i : ℕ), inRange s.1 →
      inRange ((l.foldl (fun s2 j => pairStep rng s2 i j) s).1) := by
    intro l
    induction l with
    | nil => intro s i hs; exact hs
    | cons j t ih =>
        intro s i hs
        rw [List.foldl_cons]
        exact ih _ i (pairStep_inRange rng s i j hs)
  have outer : ∀ (l : List ℕ) (s : List Point × ℕ), inRange s.1 →
      inRange ((l.foldl
        (fun s i =>
          (List.range NUMBER_OF_MESH_ROUTERS).foldl (fun s2 j => pairStep rng s2 i j) s)
        s).1) := by
    intro l
    induction l with
    | nil => intro s hs; exact hs
    | cons i t ih =>
        intro s hs
        rw [List.foldl_cons]
        exact ih _ (inner _ s i hs)
  exact outer _ st h

theorem iterationStep_routers (rng : ℕ → ℝ) (clients : List Point) (st : OptState) :
    (iterationStep rng clients st).routers = (sweep rng (st.routers, st.ctr)).1 := by
  by_cases h : fitness_function (sweep rng (st.routers, st.ctr)).1 clients > st.bestFitness
  · rw [iterationStep, if_pos h]
  · rw [iterationStep, if_neg h]

theorem initRouters_inRange (rng : ℕ → ℝ)
    (hinit : ∀ k, k < initDraws → LOWER_BOUND ≤ rng k ∧ rng k < UPPER_BOUND) :
    inRange (initRouters rng) := by
  intro p hp c hc
  rw [initRouters, initPoints] at hp
  obtain ⟨k, hk, rfl⟩ := List.mem_map.mp hp
  obtain ⟨d, hd, rfl⟩ := List.mem_map.mp hc
  rw [List.mem_range] at hk hd
  have hidx : NUMBER_OF_MESH_CLIENTS * DIMENSIONS + k * DIMENSIONS + d < initDraws := by
    rw [initDraws, NUMBER_OF_MESH_CLIENTS, NUMBER_OF_MESH_ROUTERS, DIMENSIONS] at *
    omega
  obtain ⟨h1, h2⟩ := hinit _ hidx
  exact ⟨h1, le_of_lt h2⟩

theorem stateAfter_succ (rng : ℕ → ℝ) (t : ℕ) :
    stateAfter rng (t + 1) = iterationStep rng (initClients rng) (stateAfter rng t) := by
  rw [stateAfter, stateAfter]
  exact Function.iterate_succ_apply' _ t _

/-- C1: from initialization through every iteration, and across every single
clamped per-coordinate update, all router coordinates stay within
`[LOWER_BOUND, UPPER_BOUND]`. -/
theorem C1_clamp_invariant : ∀ rng : ℕ → ℝ,
    (∀ k, k < initDraws → LOWER_BOUND ≤ rng k ∧ rng k < UPPER_BOUND) →
    inRange (initRouters rng)
    ∧ (∀ (beta : ℝ) (i j d : ℕ) (st : List Point × ℕ),
        inRange st.1 → inRange (coordStep rng beta i j st d).1)
    ∧ (∀ (st : List Point × ℕ) (i j : ℕ),
        inRange st.1 → inRange (pairStep rng st i j).1)
    ∧ (∀ t : ℕ, inRange ((stateAfter rng t).routers)) := by
  intro rng hinit
  refine ⟨initRouters_inRange rng hinit,
    fun beta i j d st h => coordStep_inRange rng beta i j d st h,
    fun st i j h => pairStep_inRange rng st i j h, ?_⟩
  intro t
  induction t with
  | zero => exact initRouters_inRange rng hinit
  | succ t ih =>
      rw [stateAfter_succ, iterationStep_routers]
      exact sweep_inRange rng _ ih

/-- Witness for C1 at the constant random stream 1: the initial routers and
the routers after 5 iterations are all within bounds. -/
theorem C1_witness :
    inRange (initRouters (fun _ => (1 : ℝ)))
    ∧ inRange ((stateAfter (fun _ => (1 : ℝ)) 5).routers) := by
  have h := C1_clamp_invariant (fun _ => (1 : ℝ))
    (by
      intro k _
      rw [LOWER_BOUND, UPPER_BOUND]
      norm_num)
  exact ⟨h.1, h.2.2.2 5⟩

theorem iterationStep_pos_best (rng : ℕ → ℝ) (clients : List Point) (st : OptState)
    (h : fitness_function (sweep rng (st.routers, st.ctr)).1 clients > st.bestFitness) :
    (iterationStep rng clients st).best = (sweep rng (st.routers, st.ctr)).1 := by
  rw [iterationStep, if_pos h]

theorem iterationStep_pos_fitness (rng : ℕ → ℝ) (clients : List Point) (st : OptState)
    (h : fitness_function (sweep rng (st.routers, st.ctr)).1 clients > st.bestFitness) :
    (iterationStep rng clients st).bestFitness
        = fitness_function (sweep rng (st.routers, st.ctr)).1 clients := by
  rw [iterationStep, if_pos h]

theorem iterationStep_neg_best (rng : ℕ → ℝ) (clients : List Point) (st : OptState)
    (h : ¬ fitness_function (sweep rng (st.routers, st.ctr)).1 clients > st.bestFitness) :
    (iterationStep rng clients st).best = st.best := by
  rw [iterationStep, if_neg h]

theorem iterationStep_neg_fitness (rng : ℕ → ℝ) (clients : List Point) (st : OptState)
    (h : ¬ fitness_function (sweep rng (st.routers, st.ctr)).1 clients > st.bestFitness) :
    (iterationStep rng clients st).bestFitness = st.bestFitness := by
  rw [iterationStep, if_neg h]

theorem iterationStep_bestFitness_le (rng : ℕ → ℝ) (clients : List Point)
    (st : OptState) : st.bestFitness ≤ (iterationStep rng clients st).bestFitness := by
  by_cases h : fitness_function (sweep rng (st.routers, st.ctr)).1 clients > st.bestFitness
  · rw [iterationStep_pos_fitness rng clients st h]
    exact le_of_lt h
  · rw [iterationStep_neg_fitness rng clients st h]

/-- C2: the recorded best fitness starts at the initial population's fitness,
never decreases across iterations, and the best configuration is replaced
exactly when the current population's fitness strictly exceeds it (ties keep
the earlier best). -/
theorem C2_best_monotone : ∀ rng : ℕ → ℝ,
    (stateAfter rng 0).bestFitness = fitness_function (initRouters rng) (initClients rng)
    ∧ (stateAfter rng 0).best = initRouters rng
    ∧ (∀ t, (stateAfter rng t).bestFitness ≤ (stateAfter rng (t + 1)).bestFitness)
    ∧ (∀ s t, s ≤ t →
        (stateAfter rng s).bestFitness ≤ (stateAfter rng t).bestFitness)
    ∧ (∀ t,
        (fitness_function (sweep rng ((stateAfter rng t).routers, (stateAfter rng t).ctr)).1
              (initClients rng) > (stateAfter rng t).bestFitness →
          (stateAfter rng (t + 1)).best = (stateAfter rng (t + 1)).routers
          ∧ (stateAfter rng (t + 1)).bestFitness
              = fitness_function
                  (sweep rng ((stateAfter rng t).routers, (stateAfter rng t).ctr)).1
                  (initClients rng))
        ∧ (fitness_function (sweep rng ((stateAfter rng t).routers, (stateAfter rng t).ctr)).1
              (initClients rng) ≤ (stateAfter rng t).bestFitness →
          (stateAfter rng (t + 1)).best = (stateAfter rng t).best
          ∧ (stateAfter rng (t + 1)).bestFitness = (stateAfter rng t).bestFitness)) := by
  intro rng
  refine ⟨rfl, rfl, ?_, ?_, ?_⟩
  · intro t
    rw [stateAfter_succ]
    exact iterationStep_bestFitness_le rng (initClients rng) (stateAfter rng t)
  · intro s t hst
    induction t, hst using Nat.le_induction with
    | base => exact le_refl _
    | succ n hmn ih =>
        rw [stateAfter_succ]
        exact le_trans ih (iterationStep_bestFitness_le rng (initClients rng) _)
  · intro t
    constructor
    · intro h
      rw [stateAfter_succ]
      rw [iterationStep_routers]
      exact ⟨iterationStep_pos_best rng (initClients rng) (stateAfter rng t) h,
        iterationStep_pos_fitness rng (initClients rng) (stateAfter rng t) h⟩
    · intro h
      rw [stateAfter_succ]
      exact ⟨iterationStep_neg_best rng (initClients rng) (stateAfter rng t) (not_lt.mpr h),
        iterationStep_neg_fitness rng (initClients rng) (stateAfter rng t) (not_lt.mpr h)⟩

/-- Witness for C2 at the constant random stream 0 and iterations 1 and 3. -/
theorem C2_witness :
    (stateAfter (fun _ => (0 : ℝ)) 1).bestFitness
      ≤ (stateAfter (fun _ => (0 : ℝ)) 3).bestFitness :=
  (C2_best_monotone (fun _ => (0 : ℝ))).2.2.2.1 1 3 (by norm_num)

/-- C7: the optimizer is a deterministic function of the random stream; two
runs fed the same stream of draws return identical best configurations and
best fitness scores. -/
theorem C7_deterministic : ∀ rng1 rng2 : ℕ → ℝ,
    (∀ k, rng1 k = rng2 k) → runResult rng1 = runResult rng2 := by
  intro rng1 rng2 h
  have heq : rng1 = rng2 := funext h
  rw [heq]

/-- Witness for C7 at the constant stream 0. -/
theorem C7_witness :
    runResult (fun _ => (0 : ℝ)) = runResult (fun _ => (0 : ℝ)) :=
  C7_deterministic (fun _ => (0 : ℝ)) (fun _ => (0 : ℝ)) (fun _ => rfl)

/-- Counterexample for C4: on an empty router set the division of `ncmcpr` is
`0.0 / 0.0`, which is IEEE NaN (modelled as `none`); the division is not
guarded. -/
theorem C4_counterexample :
    ncmcprF ([] : List Point) ([] : List Point) = none := by
  rw [ncmcprF]
  norm_num

theorem length_foldl_coordStep (rng : ℕ → ℝ) (beta : ℝ) (i j : ℕ) :
    ∀ (l : List ℕ) (st : List Point × ℕ),
      ((l.foldl (coordStep rng beta i j) st).1).length = st.1.length := by
  intro l
  induction l with
  | nil => intro st; rfl
  | cons d t ih =>
      intro st
      rw [List.foldl_cons, ih]
      rw [coordStep]
      exact List.length_set _ _ _

theorem length_pairStep (rng : ℕ → ℝ) (st : List Point × ℕ) (i j : ℕ) :
    ((pairStep rng st i j).1).length = st.1.length := by
  rw [pairStep]
  split_ifs with h
  · exact length_foldl_coordStep rng _ i j (List.range DIMENSIONS) st
  · rfl

theorem length_sweep (rng : ℕ → ℝ) (st : List Point × ℕ) :
    ((sweep rng st).1).length = st.1.length := by
  rw [sweep]
  have inner : ∀ (l : List ℕ) (s : List Point × ℕ) (i : ℕ),
      ((l.foldl (fun s2 j => pairStep rng s2 i j) s).1).length = s.1.length := by
    intro l
    induction l with
    | nil => intro s i; rfl
    | cons j t ih =>
        intro s i
        rw [List.foldl_cons, ih, length_pairStep]
  have outer : ∀ (l : List ℕ) (s : List Point × ℕ),
      ((l.foldl
        (fun s i =>
          (List.range NUMBER_OF_MESH_ROUTERS).foldl (fun s2 j => pairStep rng s2 i j) s)
        s).1).length = s.1.length := by
    intro l
    induction l with
    | nil => intro s; rfl
    | cons i t ih =>
        intro s
        rw [List.foldl_cons, ih, inner]
  exact outer _ st

theorem stateAfter_routers_length (rng : ℕ → ℝ) (t : ℕ) :
    (stateAfter rng t).routers.length = NUMBER_OF_MESH_ROUTERS := by
  induction t with
  | zero =>
      show (initRouters rng).length = NUMBER_OF_MESH_ROUTERS
      rw [initRouters, initPoints]
      rw [List.length_map, List.length_range]
  | succ t ih =>
      rw [stateAfter_succ, iterationStep_routers, length_sweep]
      exact ih

/-- C4 amended: the division in `ncmcpr` is not guarded; it yields NaN exactly
on an empty router set, and no NaN arises in the program only because the
population kept by `firefly_algorithm` always holds
`NUMBER_OF_MESH_ROUTERS = 16 > 0` routers. -/
theorem C4_amended :
    (∀ routers clients : List Point, routers ≠ [] →
        ncmcprF routers clients = some (ncmcpr routers clients))
    ∧ (∀ (rng : ℕ → ℝ) (t : ℕ),
        (stateAfter rng t).routers.length = NUMBER_OF_MESH_ROUTERS)
    ∧ (∀ (rng : ℕ → ℝ) (t : ℕ),
        ncmcprF (stateAfter rng t).routers (initClients rng)
          = some (ncmcpr (stateAfter rng t).routers (initClients rng))) := by
  have main : ∀ routers clients : List Point, routers ≠ [] →
      ncmcprF routers clients = some (ncmcpr routers clients) := by
    intro routers clients hne
    rw [ncmcprF, if_neg, ncmcpr]
    intro h
    exact hne (List.length_eq_zero.mp h)
  refine ⟨main, stateAfter_routers_length, ?_⟩
  intro rng t
  refine main _ _ ?_
  intro h
  have := stateAfter_routers_length rng t
  rw [h] at this
  rw [NUMBER_OF_MESH_ROUTERS] at this
  simp at this

/-- Witness for C4 amended: a singleton router set gives an ordinary quotient,
and the population after 3 iterations still has 16 routers. -/
theorem C4_witness :
    ncmcprF [[(0 : ℝ), 0]] ([] : List Point)
        = some (ncmcpr [[(0 : ℝ), 0]] ([] : List Point))
    ∧ (stateAfter (fun _ => (0 : ℝ)) 3).routers.length = NUMBER_OF_MESH_ROUTERS :=
  ⟨C4_amended.1 [[(0 : ℝ), 0]] ([] : List Point) (by simp),
    C4_amended.2.1 (fun _ => (0 : ℝ)) 3⟩

theorem getD_set_self_of_lt {α : Type _} (l : List α) (i : ℕ) (a dflt : α)
    (h : i < l.length) : (l.set i a).getD i dflt = a := by
  rw [List.getD_eq_getElem _ _ (by rw [List.length_set]; exact h)]
  exact List.getElem_set_self _

theorem getD_set_ne_idx {α : Type _} (l : List α) (i j : ℕ) (a dflt : α)
    (h : i ≠ j) : (l.set i a).getD j dflt = l.getD j dflt := by
  by_cases hj : j < l.length
  · rw [List.getD_eq_getElem _ _ (by rw [List.length_set]; exact hj),
      List.getD_eq_getElem _ _ hj]
    exact List.getElem_set_ne h _
  · rw [List.getD_eq_default _ _ (by rw [List.length_set]; omega),
      List.getD_eq_default _ _ (by omega)]

theorem foldl_flatMap {α β γ : Type _} (l : List α) (g : α → List β)
    (f : γ → β → γ) : ∀ init : γ,
      (l.flatMap g).foldl f init = l.foldl (fun s a => (g a).foldl f s) init := by
  induction l with
  | nil => intro init; rfl
  | cons a t ih =>
      intro init
      rw [List.flatMap_cons, List.foldl_append, List.foldl_cons, ih]

theorem coordStep_fst (rng : ℕ → ℝ) (beta : ℝ) (i j : ℕ) (st : List Point × ℕ)
    (d : ℕ) :
    (coordStep rng beta i j st d).1
      = st.1.set i ((st.1.getD i []).set d
          (clampR
            ((st.1.getD i []).getD d 0
              + beta * ((st.1.getD j []).getD d 0 - (st.1.getD i []).getD d 0)
              + ALPHA * (rng st.2 - 0.5))
            LOWER_BOUND UPPER_BOUND)) := rfl

theorem coordStep_snd (rng : ℕ → ℝ) (beta : ℝ) (i j : ℕ) (st : List Point × ℕ)
    (d : ℕ) : (coordStep rng beta i j st d).2 = st.2 + 1 := rfl

theorem coordFold2 (rng : ℕ → ℝ) (beta : ℝ) (i j : ℕ) (st : List Point × ℕ)
    (hij : i ≠ j) (hi : i < st.1.length) (hlen : (st.1.getD i []).length = 2) :
    ((List.range 2).foldl (coordStep rng beta i j) st).2 = st.2 + 2
    ∧ (∀ k, k ≠ i → ((List.range 2).foldl (coordStep rng beta i j) st).1.getD k []
        = st.1.getD k [])
    ∧ (∀ d, d < 2 →
        (((List.range 2).foldl (coordStep rng beta i j) st).1.getD i []).getD d 0
          = clampR ((st.1.getD i []).getD d 0
              + beta * ((st.1.getD j []).getD d 0 - (st.1.getD i []).getD d 0)
              + ALPHA * (rng (st.2 + d) - 0.5)) LOWER_BOUND UPPER_BOUND) := by
  have hfold : (List.range 2).foldl (coordStep rng beta i j) st
      = coordStep rng beta i j (coordStep rng beta i j st 0) 1 := rfl
  have hS1len : i < (coordStep rng beta i j st 0).1.length := by
    rw [coordStep_fst, List.length_set]
    exact hi
  have hS1i : (coordStep rng beta i j st 0).1.getD i []
      = (st.1.getD i []).set 0
          (clampR
            ((st.1.getD i []).getD 0 0
              + beta * ((st.1.getD j []).getD 0 0 - (st.1.getD i []).getD 0 0)
              + ALPHA * (rng st.2 - 0.5))
            LOWER_BOUND UPPER_BOUND) := by
    rw [coordStep_fst]
    exact getD_set_self_of_lt _ _ _ _ hi
  have hS1j : (coordStep rng beta i j st 0).1.getD j [] = st.1.getD j [] := by
    rw [coordStep_fst]
    exact getD_set_ne_idx _ _ _ _ _ hij
  have hS1ctr : (coordStep rng beta i j st 0).2 = st.2 + 1 := rfl
  refine ⟨by rw [hfold, coordStep_snd, coordStep_snd], ?_, ?_⟩
  · intro k hk
    rw [hfold, coordStep_fst]
    rw [getD_set_ne_idx _ _ _ _ _ (fun h => hk h.symm)]
    rw [coordStep_fst]
    exact getD_set_ne_idx _ _ _ _ _ (fun h => hk h.symm)
  · intro d hd
    have hfin : ((List.range 2).foldl (coordStep rng beta i j) st).1.getD i []
        = ((coordStep rng beta i j st 0).1.getD i []).set 1
            (clampR
              (((coordStep rng beta i j st 0).1.getD i []).getD 1 0
                + beta * (((coordStep rng beta i j st 0).1.getD j []).getD 1 0
                    - ((coordStep rng beta i j st 0).1.getD i []).getD 1 0)
                + ALPHA * (rng (coordStep rng beta i j st 0).2 - 0.5))
              LOWER_BOUND UPPER_BOUND) := by
      rw [hfold, coordStep_fst]
      exact getD_set_self_of_lt _ _ _ _ hS1len
    interval_cases d
    · rw [hfin]
      rw [getD_set_ne_idx _ _ _ _ _ (by norm_num)]
      rw [hS1i]
      rw [getD_set_self_of_lt _ _ _ _ (by omega)]
      norm_num
    · rw [hfin]
      have hlen1 : (1 : ℕ) < ((coordStep rng beta i j st 0).1.getD i []).length := by
        rw [hS1i, List.length_set]
        omega
      rw [getD_set_self_of_lt _ _ _ _ hlen1]
      rw [hS1i, hS1j, hS1ctr]
      rw [getD_set_ne_idx _ _ _ _ _ (by norm_num)]



/-- C5: one sweep visits the ordered pairs in program order with updates
immediately visible to later pairs, and for each pair (i, j) with i different
from j the update moves every coordinate of router i by
beta times the coordinate gap plus the scaled random perturbation, then clamps
it, where beta is computed from the positions at the moment the pair is
processed. -/
theorem C5_pair_update :
    (∀ (rng : ℕ → ℝ) (st : List Point × ℕ),
        sweep rng st
          = (pairSeq NUMBER_OF_MESH_ROUTERS).foldl
              (fun s p => pairStep rng s p.1 p.2) st)
    ∧ (∀ (rng : ℕ → ℝ) (st : List Point × ℕ) (i j : ℕ),
        i ≠ j → i < st.1.length → (st.1.getD i []).length = DIMENSIONS →
        (pairStep rng st i j).2 = st.2 + DIMENSIONS
        ∧ (∀ k, k ≠ i →
            (pairStep rng st i j).1.getD k [] = st.1.getD k [])
        ∧ (∀ d, d < DIMENSIONS →
            ((pairStep rng st i j).1.getD i []).getD d 0
              = clampR
                  ((st.1.getD i []).getD d 0
                    + BETA0 * Real.exp (-GAMMA
                          * distance (st.1.getD i []) (st.1.getD j [])
                          * distance (st.1.getD i []) (st.1.getD j []))
                        * ((st.1.getD j []).getD d 0 - (st.1.getD i []).getD d 0)
                    + ALPHA * (rng (st.2 + d) - 0.5))
                  LOWER_BOUND UPPER_BOUND)) := by
  constructor
  · intro rng st
    rw [sweep, pairSeq, foldl_flatMap]
    congr 1
  · intro rng st i j hij hi hlen
    have hpair : pairStep rng st i j
        = (List.range 2).foldl
            (coordStep rng
              (BETA0 * Real.exp (-GAMMA * distance (st.1.getD i []) (st.1.getD j [])
                * distance (st.1.getD i []) (st.1.getD j []))) i j)
            st := by
      rw [pairStep, if_pos hij]
      rfl
    have h := coordFold2 rng
      (BETA0 * Real.exp (-GAMMA * distance (st.1.getD i []) (st.1.getD j [])
        * distance (st.1.getD i []) (st.1.getD j []))) i j st hij hi hlen
    refine ⟨?_, ?_, ?_⟩
    · rw [hpair]
      exact h.1
    · intro k hk
      rw [hpair]
      exact h.2.1 k hk
    · intro d hd
      rw [hpair]
      exact h.2.2 d hd

/-- Witness for C5 at a concrete two-router state: the counter advances by
DIMENSIONS and router 1 is untouched when the pair (0, 1) is processed. -/
theorem C5_witness :
    (pairStep (fun _ => (0 : ℝ)) (([[(1 : ℝ), 2], [3, 4]], 0) : List Point × ℕ) 0 1).2
        = 0 + DIMENSIONS
    ∧ (pairStep (fun _ => (0 : ℝ)) (([[(1 : ℝ), 2], [3, 4]], 0) : List Point × ℕ) 0 1).1.getD 1 []
        = (([[(1 : ℝ), 2], [3, 4]] : List Point)).getD 1 [] := by
  have h := C5_pair_update.2 (fun _ => (0 : ℝ))
    (([[(1 : ℝ), 2], [3, 4]], 0) : List Point × ℕ) 0 1
    (by norm_num) (by norm_num) (by rfl)
  exact ⟨h.1, h.2.1 1 (by norm_num)⟩

end Firefly
